import Mathlib

/-!
Verification of the `plsdo` repository: a shallow embedding of its Go
sources (`pkg/ast/ast.go`, `pkg/gopls` client, and the `Matcher`
orchestrator) together with theorems settling the specification claims.

Machine integers are modelled as `Int` (Go `int` overflow is irrelevant at
the sizes involved); Go byte strings are modelled as `List Char`
(codepoint order coincides with UTF-8 byte order); fallible Go functions
return `Except`.  External collaborators (`os.ReadFile`, `go/parser`,
`go/build`, the gopls subprocess, `go/printer`) are modelled as explicit
environment records of pure functions, matching the single-shot,
deterministic-environment reading of the design.
-/

namespace Plsdo

/-! ### Go AST model (`go/ast` nodes as used by `pkg/ast/ast.go`) -/

/-- Receiver type expressions, the fragment of `ast.Expr` that
`exprToString` is applied to in the claims under study. -/
inductive RExpr : Type where
  | ident (name : String)
  | star (e : RExpr)
  | selector (e : RExpr) (name : String)
deriving Repr, DecidableEq

/-- Model of `exprToString` (ast.go:281) on the constructors above. -/
def exprToString : RExpr → String
  | .ident n => n
  | .star e => "*" ++ exprToString e
  | .selector e n => exprToString e ++ "." ++ n

/-- Receiver field of a `FuncDecl` (`fn.Recv.List[0]`): its type
expression and the declared names.  Go's parser produces at most one
receiver field, modelled by wrapping `Recv` in `Option` at use sites. -/
structure Recv : Type where
  rtype : RExpr
  names : List String
deriving Repr, DecidableEq

/-- Discrimination of the `ast.Node` cases inspected by the traversals in
ast.go: `FuncDecl` (with name, position of the name token, receiver),
`FuncLit`, `CallExpr`, and every other node kind. -/
inductive NodeKind : Type where
  | funcDecl (name : String) (namePos : Int) (recv : Option Recv)
  | funcLit
  | callExpr
  | other
deriving Repr, DecidableEq

/-- An `ast.Node`: kind, `Pos()`, `End()` (as `token.Pos` values, i.e.
absolute positions in the file set), and children in source order. -/
inductive GoNode : Type where
  | mk (kind : NodeKind) (pos endPos : Int) (children : List GoNode)

/-- Projection onto the node kind. -/
def GoNode.kind : GoNode → NodeKind
  | .mk k _ _ _ => k

/-- Projection onto `Pos()`. -/
def GoNode.pos : GoNode → Int
  | .mk _ p _ _ => p

/-- Projection onto `End()`. -/
def GoNode.endPos : GoNode → Int
  | .mk _ _ e _ => e

/-- Projection onto the children list. -/
def GoNode.children : GoNode → List GoNode
  | .mk _ _ _ cs => cs

/-- The containment test used by both traversals in ast.go
(`n.Pos() <= position && position <= n.End()`). -/
def Contains (p : Int) (n : GoNode) : Prop :=
  n.pos ≤ p ∧ p ≤ n.endPos

instance (p : Int) (n : GoNode) : Decidable (Contains p n) := by
  unfold Contains; infer_instance

/-- Whether a node is a `CallExpr`. -/
def IsCall (n : GoNode) : Prop := n.kind = NodeKind.callExpr

instance (n : GoNode) : Decidable (IsCall n) := by
  unfold IsCall; infer_instance

/-- Whether a node is a `FuncDecl` or `FuncLit` (the cases of the switch
in `GetEnclosingFunctionName`). -/
def isFuncNode : GoNode → Bool
  | .mk (.funcDecl _ _ _) _ _ _ => true
  | .mk .funcLit _ _ _ => true
  | _ => false

mutual

/-- Pre-order node list of a tree, the order in which `ast.Inspect`
visits nodes. -/
def preorder : GoNode → List GoNode
  | .mk k s e cs => GoNode.mk k s e cs :: preorderList cs

/-- Pre-order node list of a forest. -/
def preorderList : List GoNode → List GoNode
  | [] => []
  | c :: cs => preorder c ++ preorderList cs

end

/-- Subtree relation: `Subtree d t` holds when `d` occurs as a node of
the tree `t` (possibly `t` itself). -/
inductive Subtree : GoNode → GoNode → Prop where
  | refl (n : GoNode) : Subtree n n
  | child {d c t : GoNode} : c ∈ t.children → Subtree d c → Subtree d t

/-- Span well-formedness of Go syntax trees: each child's span lies
within its parent's span, and the spans of siblings are separated in
source order (each ends strictly before the next begins).  Trees
produced by `go/parser` satisfy this. -/
inductive WF : GoNode → Prop where
  | mk {n : GoNode} :
      (∀ c ∈ n.children, n.pos ≤ c.pos ∧ c.endPos ≤ n.endPos) →
      n.children.Pairwise (fun a b => a.endPos < b.pos) →
      (∀ c ∈ n.children, WF c) →
      WF n

/-! ### The enclosing-function traversal (`GetEnclosingFunctionName`, ast.go:153-180) -/

/-- Result record of `GetEnclosingFunctionName`: the named triple
`(functionName, receiverType, receiverName)`. -/
structure Enc : Type where
  functionName : String
  receiverType : String
  receiverName : String
deriving Repr, DecidableEq

/-- Fields reported for a function-like node, exactly as the switch at
ast.go:158-177 assigns them: a `FuncDecl` yields its name and, when a
receiver is present, `exprToString` of the receiver type and the first
receiver name (empty when anonymous); a `FuncLit` yields the
anonymous-function marker with empty receiver. -/
def encOf (n : GoNode) : Enc :=
  match n.kind with
  | .funcDecl name _ recv =>
    match recv with
    | none => ⟨name, "", ""⟩
    | some r => ⟨name, exprToString r.rtype, r.names.headD ""⟩
  | .funcLit => ⟨"anonymous function", "", ""⟩
  | _ => ⟨"", "", ""⟩

mutual

/-- The `ast.Inspect` walk of `GetEnclosingFunctionName`: visiting a
node whose span contains the position stops at the first `FuncDecl` or
`FuncLit` (returning its `encOf` record and skipping the rest of the
walk, which is what the `found` flag achieves); every other node is
descended into, and siblings are tried in order. -/
def encFind (p : Int) : GoNode → Option Enc
  | .mk k s e cs =>
    if s ≤ p ∧ p ≤ e then
      match k with
      | .funcDecl name np recv => some (encOf (GoNode.mk (.funcDecl name np recv) s e cs))
      | .funcLit => some (encOf (GoNode.mk .funcLit s e cs))
      | _ => encFindList p cs
    else encFindList p cs

/-- Walk of a forest: first result wins (later siblings are only visited
while `found` is still false). -/
def encFindList (p : Int) : List GoNode → Option Enc
  | [] => none
  | c :: cs =>
    match encFind p c with
    | some r => some r
    | none => encFindList p cs

end

mutual

/-- The `ast.Inspect` walk of `ExtractFullCall` (ast.go:104-117): every
`CallExpr` whose span contains the position overwrites the current
candidate, and the walk always continues into children, so the final
candidate is the last containing call in pre-order. -/
def findCall (p : Int) (acc : Option (Int × Int)) : GoNode → Option (Int × Int)
  | .mk k s e cs =>
    findCallList p (if k = NodeKind.callExpr ∧ s ≤ p ∧ p ≤ e then some (s, e) else acc) cs

/-- Walk of a forest, threading the current candidate left to right. -/
def findCallList (p : Int) (acc : Option (Int × Int)) : List GoNode → Option (Int × Int)
  | [] => acc
  | c :: cs => findCallList p (findCall p acc c) cs

end

/-! ### The AST processor (`ASTProcessor`, ast.go:47-132, 256-266) -/

/-- Error kinds of the analyzer, one constructor per distinct
`fmt.Errorf` site in ast.go (plus the wrapped errors of the external
collaborators used by `FindFuncDefinitions` and the orchestrator). -/
inductive Err : Type where
  | readError (path msg : String)
  | parseError (path msg : String)
  | importError (msg : String)
  | refsError (msg : String)
  | invalidPosition
  | noCallExpr
  | invalidCallPositions
deriving Repr, DecidableEq

/-- A parsed file as held by the processor: the syntax tree root
(`*ast.File`), the file's base position in the `token.FileSet` (so that
`fset.Position(p).Offset = p - base` for `p` inside the file; the first
file registered in a fresh file set has base 1), and the `token.Pos` of
the start of each line (`file.LineStart`), whose length is
`file.LineCount()`. -/
structure GoFile : Type where
  root : GoNode
  base : Int
  lineStarts : List Int

instance : Inhabited GoFile := ⟨⟨GoNode.mk .other 0 0 [], 0, []⟩⟩

/-- Result of `build.Import` as consumed by `FindFuncDefinitions`: the
package directory and its `.go` file names. -/
structure Pkg : Type where
  dir : String
  goFiles : List String

/-- Environment of external collaborators of the analyzer:
`os.ReadFile` and `parser.ParseFile` (the Go parser itself is outside
this repository; a parse either fails or yields a `GoFile`), and
`build.Import` for package resolution.  All are pure functions: the
design assumes an immutable filesystem for the length of one
invocation. -/
structure Env : Type where
  readFile : String → Except String (List Char)
  parse : String → List Char → Except String GoFile
  importPkg : String → Except String Pkg

/-- State of an `ASTProcessor`: the cache of parsed files keyed by file
path (`fileMap`); the `token.FileSet` is carried inside each `GoFile`
as its `base`/`lineStarts` data. -/
structure ASTProcessor : Type where
  fileMap : List (String × GoFile)

/-- Model of `NewASTProcessor` (ast.go:53): an empty cache. -/
def newASTProcessor : ASTProcessor := ⟨[]⟩

/-- Model of `ParseFile` (ast.go:61-80): return immediately when the
path is cached; otherwise read the file (wrapping a read failure),
parse it (wrapping a parse failure), and cache the parsed tree.  Only
the success path writes to the cache. -/
def parseFile (env : Env) (a : ASTProcessor) (filePath : String) :
    ASTProcessor × Except Err Unit :=
  match a.fileMap.lookup filePath with
  | some _ => (a, .ok ())
  | none =>
    match env.readFile filePath with
    | .error msg => (a, .error (.readError filePath msg))
    | .ok src =>
      match env.parse filePath src with
      | .error msg => (a, .error (.parseError filePath msg))
      | .ok file => (⟨(filePath, file) :: a.fileMap⟩, .ok ())

/-- Model of `getPosition` (ast.go:256-266): only the line is validated
(`line < 1 || line > file.LineCount()` yields `token.NoPos`, which is
the integer 0); otherwise the result is `file.LineStart(line)` plus
`character - 1`, with the column never checked. -/
def getPosition (f : GoFile) (line character : Int) : Int :=
  if line < 1 ∨ line > (f.lineStarts.length : Int) then 0
  else f.lineStarts.getD (line - 1).toNat 0 + (character - 1)

/-- Source text of a span given by file-relative offsets, the
`src[startOffset:endOffset]` slice of ast.go:130. -/
def sliceChars (src : List Char) (startOffset endOffset : Int) : List Char :=
  (src.drop startOffset.toNat).take (endOffset - startOffset).toNat

/-- Model of `ExtractFullCall` (ast.go:83-132): ensure the file is
parsed, re-read its content, convert (line, character) to a position
(rejecting `token.NoPos`), run the innermost-call walk, and slice the
source between the call's offsets after the bounds checks of
ast.go:126.  The cache lookup after a successful `ParseFile` cannot
miss; the `getD default` mirrors Go's zero-value map read. -/
def extractFullCall (env : Env) (a : ASTProcessor) (filePath : String)
    (line character : Int) : ASTProcessor × Except Err (List Char) :=
  match parseFile env a filePath with
  | (a, .error e) => (a, .error e)
  | (a, .ok ()) =>
    let file := (a.fileMap.lookup filePath).getD default
    match env.readFile filePath with
    | .error msg => (a, .error (.readError filePath msg))
    | .ok src =>
      let position := getPosition file line character
      if position = 0 then (a, .error .invalidPosition)
      else
        match findCall position none file.root with
        | none => (a, .error .noCallExpr)
        | some (s, e) =>
          let startOffset := s - file.base
          let endOffset := e - file.base
          if startOffset < 0 ∨ endOffset > (src.length : Int) ∨ startOffset ≥ endOffset then
            (a, .error .invalidCallPositions)
          else (a, .ok (sliceChars src startOffset endOffset))

/-- Model of `GetEnclosingFunctionName` (ast.go:136-188): ensure the
file is parsed, convert the position (rejecting `token.NoPos`), walk
with `encFind`, and fall back to the global-scope marker with empty
receiver when no function declaration or literal was found. -/
def getEnclosingFunctionName (env : Env) (a : ASTProcessor) (filePath : String)
    (line character : Int) : ASTProcessor × Except Err Enc :=
  match parseFile env a filePath with
  | (a, .error e) => (a, .error e)
  | (a, .ok ()) =>
    let file := (a.fileMap.lookup filePath).getD default
    let position := getPosition file line character
    if position = 0 then (a, .error .invalidPosition)
    else
      match encFind position file.root with
      | some r => (a, .ok r)
      | none => (a, .ok ⟨"global scope", "", ""⟩)

/-! ### Pattern matching (`github.com/ryanuber/go-glob` and `isFuncMatch`, ast.go:235-253) -/

/-- Model of `strings.Index`: offset of the first occurrence of `part`
in the subject, or `none` (Go returns -1).  Offsets are in characters;
for the ASCII identifiers involved this coincides with Go's bytes. -/
def strIndexChars (part : List Char) : List Char → Option Nat
  | [] => if part.isPrefixOf ([] : List Char) then some 0 else none
  | c :: rest =>
    if part.isPrefixOf (c :: rest) then some 0
    else (strIndexChars part rest).map (· + 1)

/-- Model of `strings.Split(s, sep)` for a one-character separator (the
only use here is the separator `*`). -/
def splitOnChar (sep : Char) : List Char → List (List Char)
  | [] => [[]]
  | c :: rest =>
    let r := splitOnChar sep rest
    if c == sep then [] :: r
    else
      match r with
      | [] => [[c]]
      | h :: t => (c :: h) :: t

/-- Loop of `glob.Glob` over `parts[0 : len(parts)-1]`: thread the
remaining subject, requiring the first part at offset 0 unless the
pattern has a leading `*`, and every later part anywhere; afterwards
accept if the pattern has a trailing `*` or the last part is a suffix
of what remains.  A missing part on the first iteration with a leading
glob cannot occur (that first part is empty), so the `toNat` clamp of
the unreachable negative slice is immaterial. -/
def globLoop (leadingGlob trailingGlob : Bool) (lastPart : List Char) :
    Bool → List Char → List (List Char) → Bool
  | _, subj, [] => trailingGlob || lastPart.isSuffixOf subj
  | first, subj, part :: rest =>
    let idx : Int :=
      match strIndexChars part subj with
      | some n => (n : Int)
      | none => -1
    if first && (!leadingGlob && idx != 0) then false
    else if !first && idx < 0 then false
    else globLoop leadingGlob trailingGlob lastPart false
      (subj.drop (idx + (part.length : Int)).toNat) rest

/-- Model of `glob.Glob(pattern, subj)` from github.com/ryanuber/go-glob,
the dependency `isFuncMatch` delegates to: `*` separates literal parts,
an empty pattern matches only the empty subject, and the bare pattern
`*` matches everything (in particular the empty receiver string). -/
def globMatch (pattern subj : String) : Bool :=
  if pattern.data == ([] : List Char) then subj == pattern
  else if pattern.data == ['*'] then true
  else
    let parts := splitOnChar '*' pattern.data
    if parts.length == 1 then subj == pattern
    else
      globLoop (['*'].isPrefixOf pattern.data) (['*'].isSuffixOf pattern.data)
        (parts.getLastD []) true subj.data parts.dropLast

/-- Model of `strings.Cut(s, sep)`: split around the first occurrence of
`sep`; `none` models `found = false`. -/
def stringCut (s sep : String) : Option (String × String) :=
  match strIndexChars sep.data s.data with
  | some i => some (⟨s.data.take i⟩, ⟨s.data.drop (i + sep.data.length)⟩)
  | none => none

/-- Model of `strings.TrimPrefix`. -/
def trimPrefixStr (s pre : String) : String :=
  if pre.data.isPrefixOf s.data then ⟨s.data.drop pre.data.length⟩ else s

/-- Model of `ast.IsExported`: the first character is upper case
(ASCII reading of `unicode.IsUpper`, which agrees on the identifiers
considered here; the empty name is not exported). -/
def isExported (name : String) : Bool :=
  (name.data.headD 'a').isUpper

/-- Model of `extractRecvType` (ast.go:268-278): the stringified
receiver type and first receiver name, both empty when there is no
receiver (Go's `len(recv.List) != 1` check collapses to the `none`
case, since the parser produces at most one receiver field). -/
def extractRecvType (recv : Option Recv) : String × String :=
  match recv with
  | none => ("", "")
  | some r => (exprToString r.rtype, r.names.headD "")

/-- Model of `isFuncMatch` (ast.go:235-253): strip a leading `*` from
the receiver type, then accept if any pattern matches — a dotted
pattern `recvGlob.methodGlob` requires the receiver glob to match the
(possibly empty) receiver type and the method glob to match the
function name; an undotted pattern is matched against the function
name alone. -/
def isFuncMatch (recv : Option Recv) (funcName : String) (funcPatterns : List String) : Bool :=
  let recvType := trimPrefixStr (extractRecvType recv).1 "*"
  funcPatterns.any fun pattern =>
    match stringCut pattern "." with
    | some (structName, methodName) =>
      if !globMatch structName recvType then false
      else globMatch methodName funcName
    | none => globMatch pattern funcName

/-! ### Definition scanning (`FindFuncDefinitions`, ast.go:193-233) -/

/-- Model of `token.FileSet.Position` restricted to (line, column): the
line is the number of line starts at or before `p`, the column is the
offset from that line's start plus one. -/
def positionOf (f : GoFile) (p : Int) : Int × Int :=
  let starts := f.lineStarts.filter (fun s => s ≤ p)
  match starts.getLast? with
  | some s => ((starts.length : Int), p - s + 1)
  | none => (0, 0)

/-- Record of type `ast.Match` (ast.go:24-32). -/
structure AstMatch : Type where
  pkg : String
  recvType : String
  recvName : String
  funcName : String
  filename : String
  offsetLine : Int
  offsetCol : Int
deriving Repr, DecidableEq

/-- Model of `filepath.Join(dir, file)` for the clean relative file
names produced by `build.Import`. -/
def filepathJoin (dir file : String) : String := dir ++ "/" ++ file

/-- Handling of one top-level declaration in the loop of
`FindFuncDefinitions` (ast.go:204-230): only exported `FuncDecl`s that
pass `isFuncMatch` produce a `Match`, positioned at the declaration's
name token. -/
def declToMatch (f : GoFile) (pkgPath fullPath : String) (patterns : List String)
    (n : GoNode) : Option AstMatch :=
  match n.kind with
  | .funcDecl name namePos recv =>
    if !isExported name then none
    else if !isFuncMatch recv name patterns then none
    else
      let pos := positionOf f namePos
      let rt := extractRecvType recv
      some ⟨pkgPath, rt.1, rt.2, name, fullPath, pos.1, pos.2⟩
  | _ => none

/-- Loop of `FindFuncDefinitions` over the package's Go files: parse
each (propagating failures and threading the cache) and collect the
declaration matches of its top-level declarations in order. -/
def findDefsLoop (env : Env) (pkgPath : String) (patterns : List String) (pkgDir : String) :
    ASTProcessor → List String → ASTProcessor × Except Err (List AstMatch)
  | a, [] => (a, .ok [])
  | a, fileName :: rest =>
    let fullPath := filepathJoin pkgDir fileName
    match parseFile env a fullPath with
    | (a, .error e) => (a, .error e)
    | (a, .ok ()) =>
      let f := (a.fileMap.lookup fullPath).getD default
      let ms := f.root.children.filterMap (declToMatch f pkgPath fullPath patterns)
      match findDefsLoop env pkgPath patterns pkgDir a rest with
      | (a, .error e) => (a, .error e)
      | (a, .ok more) => (a, .ok (ms ++ more))

/-- Model of `FindFuncDefinitions` (ast.go:193-233): resolve the package
with `build.Import`, then scan every file's top-level declarations. -/
def findFuncDefinitions (env : Env) (a : ASTProcessor) (pkgPath : String)
    (funcPatterns : List String) : ASTProcessor × Except Err (List AstMatch) :=
  match env.importPkg pkgPath with
  | .error msg => (a, .error (.importError msg))
  | .ok pkg => findDefsLoop env pkgPath funcPatterns pkg.dir a pkg.goFiles

/-! ### Protocol client (`pkg/gopls`) -/

/-- An incoming JSON-RPC frame as decoded by `readMessage`: the fields
the client ever inspects are the presence and value of `id` (method
kept for readability).  Each element of the client's inbox stands for
one complete `Content-Length`-framed message. -/
structure JMsg : Type where
  id : Option Int
  method : Option String
deriving Repr, DecidableEq

/-- An outgoing JSON-RPC message as built by the client: requests carry
an `id`, notifications do not; the initialize request carries the
workspace root URI. -/
structure OutMsg : Type where
  id : Option Int
  method : String
  rootUri : Option String
deriving Repr, DecidableEq

/-- State of a `GoplsClient` (part_001:32-40): the sequence counter and
the two halves of the subprocess pipe, modelled as the list of frames
still readable (`inbox`) and the messages written so far (`outbox`). -/
structure GoplsClient : Type where
  seq : Int
  inbox : List JMsg
  outbox : List OutMsg
deriving Repr, DecidableEq

/-- Error of `readMessage` when the stream is exhausted (EOF or any
framing failure). -/
inductive LspErr : Type where
  | eof
deriving Repr, DecidableEq

/-- Model of `getSeq` (part_001:210-215): increment and return the
sequence counter (the mutex is irrelevant in this sequential model). -/
def getSeq (c : GoplsClient) : GoplsClient × Int :=
  ({ c with seq := c.seq + 1 }, c.seq + 1)

/-- Model of `pathToURI` (part_001:336): prefix with the scheme
(`filepath.ToSlash` is the identity on the slash paths considered). -/
def pathToURI (path : String) : String := "file://" ++ path

/-- Model of `sendMessage` (part_001:218-231): append one framed
message to the output stream. -/
def sendMessage (c : GoplsClient) (m : OutMsg) : GoplsClient :=
  { c with outbox := c.outbox ++ [m] }

/-- Model of `readMessage` (part_001:234-270): consume and decode the
next framed message of the input stream, failing on EOF. -/
def readMessage (c : GoplsClient) : GoplsClient × Except LspErr JMsg :=
  match c.inbox with
  | [] => (c, .error .eof)
  | m :: rest => ({ c with inbox := rest }, .ok m)

/-- Model of `initialize` (part_001:162-207): send the initialize
request with a fresh id and the root URI, read exactly one message from
the stream (whose id the code does not inspect), then send the
`initialized` and `workspace/didChangeConfiguration` notifications. -/
def initSession (c : GoplsClient) (projectRoot : String) : GoplsClient × Except LspErr Unit :=
  let s := getSeq c
  let c := sendMessage s.1 ⟨some s.2, "initialize", some (pathToURI projectRoot)⟩
  match readMessage c with
  | (c, .error e) => (c, .error e)
  | (c, .ok _resp) =>
    let c := sendMessage c ⟨none, "initialized", none⟩
    let c := sendMessage c ⟨none, "workspace/didChangeConfiguration", none⟩
    (c, .ok ())

/-! ### Orchestrator (`Matcher`, part_000) -/

/-- Record of type `gopls.Match` (part_001:22-29), a reference location
with 1-based coordinates. -/
structure GoplsMatch : Type where
  uri : String
  filename : String
  startLine : Int
  startCharacter : Int
  endLine : Int
  endCharacter : Int
deriving Repr, DecidableEq

/-- Record of type `matchEntry` (part_000:22-30). -/
structure MatchEntry : Type where
  filename : String
  line : Int
  encRecvType : String
  encRecvName : String
  encFuncName : String
  orgSource : List Char
  prettySource : List Char
deriving Repr, DecidableEq

/-- Environment of the orchestrator's external collaborators: the gopls
server's answer to a `textDocument/references` request at a definition
position (`pls.FindReferences`, whatever the server chooses to report),
and `ast.Format` (best-effort re-printing through `go/printer`). -/
structure MEnv : Type where
  findReferences : String → Int → Int → Except String (List GoplsMatch)
  format : List Char → List Char

/-- State of a `Matcher` (part_000:44-48): the accumulated entries. -/
structure Matcher : Type where
  refs : List MatchEntry
deriving Repr, DecidableEq

/-- Inner loop of `FindFuncReferences` (part_000:163-187) over the
references reported for one definition: skip any whose file path does
not have the working directory as a string prefix, query the enclosing
function and the call text (propagating failures, keeping entries
already appended), and append one entry per surviving reference. -/
def refsLoop (env : Env) (menv : MEnv) (pwd : String) :
    ASTProcessor → List MatchEntry → List GoplsMatch →
      (ASTProcessor × List MatchEntry) × Except Err Unit
  | ap, acc, [] => ((ap, acc), .ok ())
  | ap, acc, mt :: rest =>
    if !(pwd.data.isPrefixOf mt.filename.data) then refsLoop env menv pwd ap acc rest
    else
      match getEnclosingFunctionName env ap mt.filename mt.startLine mt.startCharacter with
      | (ap, .error e) => ((ap, acc), .error e)
      | (ap, .ok enc) =>
        match extractFullCall env ap mt.filename mt.startLine mt.startCharacter with
        | (ap, .error e) => ((ap, acc), .error e)
        | (ap, .ok src) =>
          let me : MatchEntry :=
            ⟨mt.filename, mt.startLine, enc.receiverType, enc.receiverName,
              enc.functionName, src, menv.format src⟩
          refsLoop env menv pwd ap (acc ++ [me]) rest

/-- Outer loop of `FindFuncReferences` (part_000:158-188) over the
matched definitions: ask the server for references to each and process
them with `refsLoop`. -/
def defsLoop (env : Env) (menv : MEnv) (pwd : String) :
    ASTProcessor → List MatchEntry → List AstMatch →
      (ASTProcessor × List MatchEntry) × Except Err Unit
  | ap, acc, [] => ((ap, acc), .ok ())
  | ap, acc, d :: rest =>
    match menv.findReferences d.filename d.offsetLine d.offsetCol with
    | .error msg => ((ap, acc), .error (.refsError msg))
    | .ok mts =>
      match refsLoop env menv pwd ap acc mts with
      | ((ap, acc), .error e) => ((ap, acc), .error e)
      | ((ap, acc), .ok ()) => defsLoop env menv pwd ap acc rest

/-- Model of `Matcher.FindFuncReferences` (part_000:143-190): resolve
the pattern-matched definitions with a fresh `ASTProcessor`, then
accumulate one entry per in-workspace reference; `pwd` models
`filepath.Abs(".")`.  On error the entries appended before the failure
are kept, as in the Go code. -/
def findFuncReferences (env : Env) (menv : MEnv) (pwd : String) (m : Matcher)
    (pkgName : String) (patterns : List String) : Matcher × Except Err Unit :=
  match findFuncDefinitions env newASTProcessor pkgName patterns with
  | (_, .error e) => (m, .error e)
  | (ap, .ok defs) =>
    match defsLoop env menv pwd ap m.refs defs with
    | ((_, refs), r) => (⟨refs⟩, r)

/-- Model of `strings.Compare` on character lists (codepoint order,
which agrees with Go's byte order on valid UTF-8). -/
def cmpChars : List Char → List Char → Ordering
  | [], [] => .eq
  | [], _ :: _ => .lt
  | _ :: _, [] => .gt
  | a :: as, b :: bs => if a < b then .lt else if b < a then .gt else cmpChars as bs

/-- Model of `strings.Compare`. -/
def cmpString (a b : String) : Ordering := cmpChars a.data b.data

/-- Model of `cmp.Compare` on `Int`. -/
def cmpInt (a b : Int) : Ordering :=
  if a < b then .lt else if b < a then .gt else .eq

/-- The comparison passed to `slices.SortStableFunc` in `Matcher.sort`
(part_000:192-199): file name first, then line. -/
def cmpEntry (a b : MatchEntry) : Ordering :=
  match cmpString a.filename b.filename with
  | .eq => cmpInt a.line b.line
  | ord => ord

/-- Non-strict order induced by `cmpEntry`, the relation under which a
stable sort realises `slices.SortStableFunc`. -/
def entryLe (a b : MatchEntry) : Prop := cmpEntry a b ≠ Ordering.gt

instance : DecidableRel entryLe := fun a b => by
  unfold entryLe; infer_instance

/-- Model of `Matcher.sort` (part_000:192-199): a stable sort by
`cmpEntry`.  Stable sorts are extensionally unique, so insertion sort
computes exactly the list `slices.SortStableFunc` produces. -/
def sortRefs (refs : List MatchEntry) : List MatchEntry :=
  refs.insertionSort entryLe

/-! ### Shared concrete environment for witnesses -/

/-- Source bytes of the witness file. -/
def srcW : List Char := "package w 0123456789".data

/-- Parsed form of the witness file `/w/a.go`: base position 1 (the
first file of a fresh file set), two lines starting at positions 1 and
11, and one call expression spanning positions 5 to 15. -/
def fileW : GoFile := ⟨GoNode.mk .other 1 21 [GoNode.mk .callExpr 5 15 []], 1, [1, 11]⟩

/-- Witness environment: one readable, parseable file. -/
def envW : Env :=
  { readFile := fun p => if p == "/w/a.go" then .ok srcW else .error "no such file"
  , parse := fun p _ => if p == "/w/a.go" then .ok fileW else .error "syntax error"
  , importPkg := fun _ => .error "unused" }

/-- Witness processor state with `/w/a.go` already parsed. -/
def procW : ASTProcessor := ⟨[("/w/a.go", fileW)]⟩

/-! ### C8: ParseFile is idempotent on success -/

/-- C8: when a first `ParseFile` of a path succeeds, a second call on
the same path succeeds and leaves the cache exactly as the first call
left it; the second call does not consult the environment at all (it
holds for every environment `env2`), so the file is neither re-read nor
re-parsed and the cached tree is unchanged. -/
theorem c8_parseFile_idempotent (env : Env) (a : ASTProcessor) (path : String)
    (h : (parseFile env a path).2 = Except.ok ()) :
    ∀ env2 : Env, parseFile env2 (parseFile env a path).1 path =
      ((parseFile env a path).1, Except.ok ()) := by
  intro env2
  cases hl : a.fileMap.lookup path with
  | some f => simp [parseFile, hl]
  | none =>
    cases hr : env.readFile path with
    | error msg => simp [parseFile, hl, hr] at h
    | ok src =>
      cases hp : env.parse path src with
      | error msg => simp [parseFile, hl, hr, hp] at h
      | ok file => simp [parseFile, hl, hr, hp, List.lookup]

/-- Witness for C8 at the concrete environment `envW`: the first parse
of `/w/a.go` from an empty cache succeeds, and re-parsing returns the
identical state. -/
theorem c8_witness :
    parseFile envW (parseFile envW newASTProcessor "/w/a.go").1 "/w/a.go" =
      ((parseFile envW newASTProcessor "/w/a.go").1, Except.ok ()) :=
  c8_parseFile_idempotent envW newASTProcessor "/w/a.go" rfl envW

/-! ### C9: a failing ParseFile leaves the cache unchanged -/

/-- C9: when `ParseFile` fails (unreadable file or malformed source),
the cache is left unchanged — no entry is recorded for the failing
path — and a subsequent call on the same path behaves exactly like the
first one, attempting the read and parse again. -/
theorem c9_parseFile_error_keeps_cache (env : Env) (a : ASTProcessor) (path : String) (e : Err)
    (h : (parseFile env a path).2 = Except.error e) :
    (parseFile env a path).1 = a ∧
      parseFile env (parseFile env a path).1 path = parseFile env a path := by
  have h1 : (parseFile env a path).1 = a := by
    cases hl : a.fileMap.lookup path with
    | some f => simp [parseFile, hl] at h
    | none =>
      cases hr : env.readFile path with
      | error msg => simp [parseFile, hl, hr]
      | ok src =>
        cases hp : env.parse path src with
        | error msg => simp [parseFile, hl, hr, hp]
        | ok file => simp [parseFile, hl, hr, hp] at h
  exact ⟨h1, by rw [h1]⟩

/-- Witness for C9: reading `/missing` fails, the cache stays empty and
the retry behaves identically. -/
theorem c9_witness :
    (parseFile envW newASTProcessor "/missing").1 = newASTProcessor ∧
      parseFile envW (parseFile envW newASTProcessor "/missing").1 "/missing" =
        parseFile envW newASTProcessor "/missing" :=
  c9_parseFile_error_keeps_cache envW newASTProcessor "/missing"
    (.readError "/missing" "no such file") rfl

/-! ### C7: an out-of-range line yields a position error -/

/-- C7: on a parsed file (cached entry, readable content), both
positional queries reject line 0, negative lines, and lines past the
file's last line with the position error, never a panic or a silent
zero value: the total functions below return `Err.invalidPosition`. -/
theorem c7_bad_line_position_error (env : Env) (a : ASTProcessor) (path : String)
    (f : GoFile) (src : List Char) (line character : Int)
    (hf : a.fileMap.lookup path = some f)
    (hr : env.readFile path = Except.ok src)
    (hline : line < 1 ∨ line > (f.lineStarts.length : Int)) :
    (extractFullCall env a path line character).2 = Except.error Err.invalidPosition ∧
      (getEnclosingFunctionName env a path line character).2 =
        Except.error Err.invalidPosition := by
  have hpos : getPosition f line character = 0 := by
    unfold getPosition
    rw [if_pos hline]
  constructor
  · simp [extractFullCall, parseFile, hf, hr, hpos]
  · simp [getEnclosingFunctionName, parseFile, hf, hpos]

/-- Witness for C7 at line 0 of the two-line witness file. -/
theorem c7_witness :
    (extractFullCall envW procW "/w/a.go" 0 3).2 = Except.error Err.invalidPosition ∧
      (getEnclosingFunctionName envW procW "/w/a.go" 0 3).2 =
        Except.error Err.invalidPosition :=
  c7_bad_line_position_error envW procW "/w/a.go" fileW srcW 0 3 rfl rfl
    (Or.inl (by decide))

/-! ### C3: the initialize step does not correlate request IDs -/

/-- Client state whose next incoming frame is a server notification
bearing no `id` field at all. -/
def clientC3 : GoplsClient := ⟨0, [⟨none, some "window/logMessage"⟩], []⟩

/-- Counterexample to C3: with a single id-less notification as the next
frame, the initialize step returns success, having consumed that frame
as if it were the initialize response — a frame with no ID is accepted,
contradicting the claim that only a frame bearing the matching request
ID is. -/
theorem c3_counterexample :
    (initSession clientC3 "/w").2 = Except.ok () ∧
      clientC3.inbox.map (fun m => m.id) = [none] ∧
      (initSession clientC3 "/w").1.inbox = [] := by
  refine ⟨rfl, rfl, rfl⟩

/-- C3 as amended: the client returns from the initialize step after
reading exactly one frame from the stream, regardless of that frame's
ID or absence of one; it sends the initialize request (with the fresh
sequence id and the root URI) before reading and the two notifications
after, and fails only when no frame can be read at all. -/
theorem c3_initSession_reads_one_frame (c : GoplsClient) (root : String)
    (m : JMsg) (rest : List JMsg) (h : c.inbox = m :: rest) :
    initSession c root =
      (⟨c.seq + 1, rest,
        c.outbox ++ [⟨some (c.seq + 1), "initialize", some (pathToURI root)⟩,
          ⟨none, "initialized", none⟩, ⟨none, "workspace/didChangeConfiguration", none⟩]⟩,
        Except.ok ()) := by
  simp [initSession, getSeq, sendMessage, readMessage, h]

/-- Witness for the amended C3 at the concrete client `clientC3`. -/
theorem c3_witness :
    initSession clientC3 "/w" =
      (⟨1, [],
        [⟨some 1, "initialize", some (pathToURI "/w")⟩, ⟨none, "initialized", none⟩,
          ⟨none, "workspace/didChangeConfiguration", none⟩]⟩,
        Except.ok ()) := by
  have h := c3_initSession_reads_one_frame clientC3 "/w"
    ⟨none, some "window/logMessage"⟩ [] rfl
  simpa [clientC3] using h

/-! ### Order lemmas for the sort comparison -/

/-- Comparison of a list with itself is `eq`. -/
theorem cmpChars_self : ∀ a : List Char, cmpChars a a = Ordering.eq := by
  intro a
  induction a with
  | nil => rfl
  | cons x as ih => simp [cmpChars, lt_irrefl, ih]

/-- Swapping the arguments of `cmpChars` swaps the ordering. -/
theorem cmpChars_swap : ∀ a b : List Char, (cmpChars a b).swap = cmpChars b a := by
  intro a
  induction a with
  | nil => intro b; cases b <;> rfl
  | cons x as ih =>
    intro b
    cases b with
    | nil => rfl
    | cons y bs =>
      simp only [cmpChars]
      split_ifs with h1 h2 h2
      · exact absurd h2 (lt_asymm h1)
      · rfl
      · rfl
      · exact ih bs

/-- Only equal lists compare `eq`. -/
theorem cmpChars_eq : ∀ {a b : List Char}, cmpChars a b = Ordering.eq → a = b := by
  intro a
  induction a with
  | nil =>
    intro b h
    cases b with
    | nil => rfl
    | cons y bs => simp [cmpChars] at h
  | cons x as ih =>
    intro b h
    cases b with
    | nil => simp [cmpChars] at h
    | cons y bs =>
      simp only [cmpChars] at h
      split_ifs at h with h1 h2
      rw [le_antisymm (not_lt.mp h2) (not_lt.mp h1), ih h]

/-- Strict transitivity of `cmpChars`. -/
theorem cmpChars_lt_trans : ∀ (a b c : List Char), cmpChars a b = Ordering.lt →
    cmpChars b c = Ordering.lt → cmpChars a c = Ordering.lt := by
  intro a
  induction a with
  | nil =>
    intro b c h1 h2
    cases c with
    | cons z cs => simp [cmpChars]
    | nil =>
      cases b with
      | nil => simp [cmpChars] at h1
      | cons y bs => simp [cmpChars] at h2
  | cons x as ih =>
    intro b c h1 h2
    cases b with
    | nil => simp [cmpChars] at h1
    | cons y bs =>
      cases c with
      | nil => simp [cmpChars] at h2
      | cons z cs =>
        simp only [cmpChars] at h1 h2 ⊢
        split_ifs at h1 with hxy hyx
        · -- x < y
          split_ifs at h2 with hyz hzy
          · rw [if_pos (hxy.trans hyz)]
          · rw [if_pos (lt_of_lt_of_le hxy (not_lt.mp hzy))]
        · -- x = y, cmpChars as bs = lt
          have hxy2 : x = y := le_antisymm (not_lt.mp hyx) (not_lt.mp hxy)
          subst hxy2
          split_ifs at h2 with hyz hzy
          · rw [if_pos hyz]
          · rw [if_neg hyz, if_neg hzy]
            exact ih bs cs h1 h2

/-- String-level restatements. -/
theorem cmpString_self (a : String) : cmpString a a = Ordering.eq := cmpChars_self a.data

/-- Swap for `cmpString`. -/
theorem cmpString_swap (a b : String) : (cmpString a b).swap = cmpString b a :=
  cmpChars_swap a.data b.data

/-- Only equal strings compare `eq`. -/
theorem cmpString_eq {a b : String} (h : cmpString a b = Ordering.eq) : a = b := by
  cases a; cases b
  exact congrArg _ (cmpChars_eq h)

/-- Strict transitivity of `cmpString`. -/
theorem cmpString_lt_trans {a b c : String} (h1 : cmpString a b = Ordering.lt)
    (h2 : cmpString b c = Ordering.lt) : cmpString a c = Ordering.lt :=
  cmpChars_lt_trans a.data b.data c.data h1 h2

/-- Swap for `cmpInt`. -/
theorem cmpInt_swap (a b : Int) : (cmpInt a b).swap = cmpInt b a := by
  unfold cmpInt
  split_ifs <;> first | rfl | omega

/-- Only equal integers compare `eq`. -/
theorem cmpInt_eq {a b : Int} (h : cmpInt a b = Ordering.eq) : a = b := by
  unfold cmpInt at h
  split_ifs at h with h1 h2
  omega

/-- Strict transitivity of `cmpInt`. -/
theorem cmpInt_lt_trans {a b c : Int} (h1 : cmpInt a b = Ordering.lt)
    (h2 : cmpInt b c = Ordering.lt) : cmpInt a c = Ordering.lt := by
  unfold cmpInt at h1 h2 ⊢
  split_ifs at h1 h2 with hab hbc
  rw [if_pos (hab.trans hbc)]

/-- A comparison of `eq` means the sort keys coincide. -/
theorem cmpEntry_eq_key {a b : MatchEntry} (h : cmpEntry a b = Ordering.eq) :
    a.filename = b.filename ∧ a.line = b.line := by
  unfold cmpEntry at h
  cases hs : cmpString a.filename b.filename <;> simp only [hs] at h
  · cases h
  · exact ⟨cmpString_eq hs, cmpInt_eq h⟩
  · cases h

/-- The comparison only depends on the keys (left argument). -/
theorem cmpEntry_congr_left {a b : MatchEntry} (hf : a.filename = b.filename)
    (hl : a.line = b.line) (c : MatchEntry) : cmpEntry a c = cmpEntry b c := by
  unfold cmpEntry
  rw [hf, hl]

/-- The comparison only depends on the keys (right argument). -/
theorem cmpEntry_congr_right {b c : MatchEntry} (hf : b.filename = c.filename)
    (hl : b.line = c.line) (a : MatchEntry) : cmpEntry a b = cmpEntry a c := by
  unfold cmpEntry
  rw [hf, hl]

/-- Swap for `cmpEntry`. -/
theorem cmpEntry_swap (a b : MatchEntry) : (cmpEntry a b).swap = cmpEntry b a := by
  unfold cmpEntry
  cases hs : cmpString a.filename b.filename <;>
      rw [← cmpString_swap a.filename b.filename, hs]
  · rfl
  · exact cmpInt_swap a.line b.line
  · rfl

/-- Strict transitivity of `cmpEntry`. -/
theorem cmpEntry_lt_trans {a b c : MatchEntry} (h1 : cmpEntry a b = Ordering.lt)
    (h2 : cmpEntry b c = Ordering.lt) : cmpEntry a c = Ordering.lt := by
  unfold cmpEntry at h1 h2 ⊢
  cases hs1 : cmpString a.filename b.filename <;> simp [hs1] at h1 <;>
    cases hs2 : cmpString b.filename c.filename <;> simp [hs2] at h2
  · simp only [cmpString_lt_trans hs1 hs2]
  · rw [cmpString_eq hs2] at hs1
    simp only [hs1]
  · rw [← cmpString_eq hs1] at hs2
    simp only [hs2]
  · have hac : cmpString a.filename c.filename = Ordering.eq := by
      rw [cmpString_eq hs1, cmpString_eq hs2]
      exact cmpString_self _
    simp only [hac]
    exact cmpInt_lt_trans h1 h2

instance : IsTotal MatchEntry entryLe := by
  constructor
  intro a b
  unfold entryLe
  cases h : cmpEntry a b with
  | lt => exact Or.inl (by simp)
  | eq => exact Or.inl (by simp)
  | gt =>
    refine Or.inr ?_
    rw [← cmpEntry_swap a b, h]
    simp [Ordering.swap]

instance : IsTrans MatchEntry entryLe := by
  constructor
  intro a b c hab hbc
  unfold entryLe at hab hbc ⊢
  cases h1 : cmpEntry a b with
  | gt => exact absurd h1 hab
  | eq =>
    obtain ⟨hf, hl⟩ := cmpEntry_eq_key h1
    rw [cmpEntry_congr_left hf hl c]
    exact hbc
  | lt =>
    cases h2 : cmpEntry b c with
    | gt => exact absurd h2 hbc
    | eq =>
      obtain ⟨hf, hl⟩ := cmpEntry_eq_key h2
      rw [← cmpEntry_congr_right hf hl a, h1]
      simp
    | lt =>
      rw [cmpEntry_lt_trans h1 h2]
      simp

/-- Comparison of an integer with itself. -/
theorem cmpInt_self (a : Int) : cmpInt a a = Ordering.eq := by
  unfold cmpInt
  simp

/-- Entries sharing one (file, line) key are tied under `cmpEntry`. -/
theorem key_tied (k : String × Int) :
    ∀ x y : MatchEntry, (x.filename == k.1 && x.line == k.2) = true →
      (y.filename == k.1 && y.line == k.2) = true → cmpEntry x y = Ordering.eq := by
  intro x y hx hy
  simp only [Bool.and_eq_true, beq_iff_eq] at hx hy
  unfold cmpEntry
  rw [hx.1, hy.1, cmpString_self, hx.2, hy.2, cmpInt_self]

/-- Filtering by a class of pairwise-tied entries commutes with an
ordered insertion: the inserted entry, if selected, lands in front of
the selected part, because a tied entry is never strictly passed. -/
theorem filter_orderedInsert (p : MatchEntry → Bool) (a : MatchEntry)
    (hkey : ∀ x y, p x = true → p y = true → cmpEntry x y = Ordering.eq) :
    ∀ l : List MatchEntry, (l.orderedInsert entryLe a).filter p =
      if p a = true then a :: l.filter p else l.filter p := by
  intro l
  induction l with
  | nil => simp [List.orderedInsert, List.filter_cons]
  | cons b t ih =>
    by_cases hle : entryLe a b
    · rw [List.orderedInsert, if_pos hle]
      by_cases hpa : p a = true
      · simp [List.filter_cons, hpa]
      · simp [List.filter_cons, hpa]
    · rw [List.orderedInsert, if_neg hle]
      by_cases hpa : p a = true
      · have hpb : ¬ p b = true := by
          intro hpb
          apply hle
          unfold entryLe
          rw [hkey a b hpa hpb]
          simp
        simp [List.filter_cons, hpa, hpb, ih]
      · simp [List.filter_cons, hpa, ih]

/-- Filtering by a class of pairwise-tied entries commutes with the
stable sort: tied entries keep their discovery order. -/
theorem filter_insertionSort (p : MatchEntry → Bool)
    (hkey : ∀ x y, p x = true → p y = true → cmpEntry x y = Ordering.eq) :
    ∀ l : List MatchEntry, (l.insertionSort entryLe).filter p = l.filter p := by
  intro l
  induction l with
  | nil => rfl
  | cons a t ih =>
    rw [List.insertionSort, filter_orderedInsert p a hkey, List.filter_cons]
    by_cases hpa : p a = true
    · rw [if_pos hpa, if_pos hpa, ih]
    · rw [if_neg hpa, if_neg hpa, ih]

/-! ### C6: the result sort -/

/-- Discovery-order entry (b.go, line 1) of the claim's example. -/
def entB1 : MatchEntry := ⟨"b.go", 1, "", "", "", [], []⟩

/-- Discovery-order entry (a.go, line 5) of the claim's example. -/
def entA5 : MatchEntry := ⟨"a.go", 5, "", "", "", [], []⟩

/-- Discovery-order entry (a.go, line 2) of the claim's example. -/
def entA2 : MatchEntry := ⟨"a.go", 2, "", "", "", [], []⟩

/-- C6: `Matcher.sort` orders the accumulated entries by file path and
then line (every adjacent — hence every — pair is related by the
non-strict comparison), it is idempotent, entries equal on both keys
keep their discovery order (filtering by any fixed key commutes with
sorting), and the claim's concrete example sorts as stated. -/
theorem c6_sort_spec :
    (∀ l : List MatchEntry, List.Sorted entryLe (sortRefs l)) ∧
      (∀ l : List MatchEntry, sortRefs (sortRefs l) = sortRefs l) ∧
      (∀ (l : List MatchEntry) (k : String × Int),
        (sortRefs l).filter (fun e => e.filename == k.1 && e.line == k.2) =
          l.filter (fun e => e.filename == k.1 && e.line == k.2)) ∧
      sortRefs [entB1, entA5, entA2] = [entA2, entA5, entB1] := by
  refine ⟨fun l => List.sorted_insertionSort entryLe l,
    fun l => (List.sorted_insertionSort entryLe l).insertionSort_eq,
    fun l k => filter_insertionSort _ (key_tied k) l, by decide⟩

/-! ### C2: receiver-qualified patterns versus receiver-less declarations -/

/-- Index of the first dot in a list that starts with a dot-free prefix
followed by a dot. -/
theorem strIndexChars_dot (suf : List Char) :
    ∀ pre : List Char, ('.' : Char) ∉ pre →
      strIndexChars (['.'] : List Char) (pre ++ '.' :: suf) = some pre.length := by
  intro pre
  induction pre with
  | nil =>
    intro _
    simp [strIndexChars, List.isPrefixOf]
  | cons c cs ih =>
    intro h
    rw [List.mem_cons, not_or] at h
    rw [List.cons_append]
    simp only [strIndexChars]
    rw [if_neg ?hc, ih h.2]
    · rfl
    · simp [List.isPrefixOf]
      intro e
      exact absurd e h.1

/-- Behaviour of `strings.Cut` on a receiver-qualified pattern whose
receiver glob is dot-free: the split lands exactly on the separating
dot. -/
theorem stringCut_pattern (sg mg : String) (hdot : ('.' : Char) ∉ sg.data) :
    stringCut (sg ++ "." ++ mg) "." = some (sg, mg) := by
  have hdata : (sg ++ "." ++ mg).data = sg.data ++ '.' :: mg.data := by
    show (sg.data ++ ['.']) ++ mg.data = sg.data ++ '.' :: mg.data
    simp
  unfold stringCut
  rw [show (".".data : List Char) = ['.'] from rfl, hdata,
    strIndexChars_dot mg.data sg.data hdot]
  have h1 : (sg.data ++ '.' :: mg.data).take sg.data.length = sg.data := by
    simp
  have h2 : (sg.data ++ '.' :: mg.data).drop (sg.data.length + (['.'] : List Char).length) =
      mg.data := by
    rw [show sg.data ++ '.' :: mg.data = (sg.data ++ ['.']) ++ mg.data by simp,
      show sg.data.length + (['.'] : List Char).length = (sg.data ++ ['.']).length by simp]
    exact List.drop_left _ _
  simp only [h1, h2]

/-- C2 as amended: a declaration with no receiver is tested against a
receiver-qualified pattern by matching the receiver glob against the
empty receiver string — it is excluded exactly when the receiver glob
fails to match the empty string.  The universal glob `*` does match the
empty string (and a literal glob such as `T` does not), so receiver-less
declarations do match `*.<methodGlob>` patterns whenever the method glob
matches their name. -/
theorem c2_amended :
    (∀ (name sg mg : String), ('.' : Char) ∉ sg.data →
        isFuncMatch none name [sg ++ "." ++ mg] = (globMatch sg "" && globMatch mg name)) ∧
      globMatch "*" "" = true ∧ globMatch "T" "" = false := by
  refine ⟨?_, by decide, by decide⟩
  intro name sg mg hdot
  unfold isFuncMatch
  rw [show trimPrefixStr (extractRecvType none).1 "*" = "" from rfl]
  simp only [List.any_cons, List.any_nil, Bool.or_false, stringCut_pattern sg mg hdot]
  cases h : globMatch sg "" <;> simp [h]

/-- Witness for the amended C2: the pattern `*.Foo` matched against the
receiver-less declaration `Foo` reduces to the two glob tests, which
both succeed. -/
theorem c2_witness :
    isFuncMatch none "Foo" ["*" ++ "." ++ "Foo"] =
      (globMatch "*" "" && globMatch "Foo" "Foo") :=
  c2_amended.1 "Foo" "*" "Foo" (by decide)

/-- Parsed witness file for the C2 counterexample: one exported
top-level function declaration `Foo` with no receiver, name token at
position 6. -/
def fileC2 : GoFile :=
  ⟨GoNode.mk .other 1 40 [GoNode.mk (.funcDecl "Foo" 6 none) 1 30 []], 1, [1]⟩

/-- Environment with the package `pkg` holding that single file. -/
def envC2 : Env :=
  { readFile := fun p => if p == "/pkg/a.go" then .ok "package p".data else .error "no such file"
  , parse := fun p _ => if p == "/pkg/a.go" then .ok fileC2 else .error "syntax error"
  , importPkg := fun s =>
      if s == "pkg" then .ok ⟨"/pkg", ["a.go"]⟩ else .error "cannot find package" }

/-- Counterexample to C2: `FindFuncDefinitions` with the
receiver-qualified pattern `*.Foo` (it does contain a dot) does include
the exported receiver-less declaration `Foo`, contradicting the claim
that no receiver-qualified pattern ever matches such a declaration. -/
theorem c2_counterexample :
    stringCut "*.Foo" "." = some ("*", "Foo") ∧
      (findFuncDefinitions envC2 newASTProcessor "pkg" ["*.Foo"]).2 =
        Except.ok [⟨"pkg", "", "", "Foo", "/pkg/a.go", 1, 6⟩] := by
  constructor
  · decide
  · rfl

/-! ### C1: the enclosing-function query -/

/-- Structural induction over `GoNode` through the children lists. -/
theorem GoNode.ind (motive : GoNode → Prop)
    (h : ∀ k s e cs, (∀ c ∈ cs, motive c) → motive (GoNode.mk k s e cs)) :
    ∀ t, motive t
  | .mk k s e cs =>
    h k s e cs (fun c hc =>
      have _hlt : sizeOf c < sizeOf (GoNode.mk k s e cs) := by
        have h1 := List.sizeOf_lt_of_mem hc
        simp only [GoNode.mk.sizeOf_spec]
        omega
      GoNode.ind motive h c)
termination_by t => sizeOf t

/-- Boolean form of the containment test. -/
def containsB (p : Int) (n : GoNode) : Bool := decide (Contains p n)

/-- Splitting `find?` over an append. -/
theorem findQ_append {α : Type} (p : α → Bool) :
    ∀ l1 l2 : List α, (l1 ++ l2).find? p =
      match l1.find? p with
      | some a => some a
      | none => l2.find? p := by
  intro l1 l2
  induction l1 with
  | nil => simp
  | cons a t ih =>
    by_cases h : p a = true
    · simp [List.find?_cons_of_pos _ h]
    · rw [List.cons_append, List.find?_cons_of_neg _ (by simpa using h),
        List.find?_cons_of_neg _ (by simpa using h), ih]

/-- Forest version of the pre-order characterisation of `encFind`. -/
theorem encFindList_eq_find (p : Int) (cs : List GoNode)
    (ih : ∀ c ∈ cs, encFind p c =
      ((preorder c).find? (fun n => isFuncNode n && containsB p n)).map encOf) :
    encFindList p cs =
      ((preorderList cs).find? (fun n => isFuncNode n && containsB p n)).map encOf := by
  induction cs with
  | nil => simp [encFindList, preorderList]
  | cons c t iht =>
    rw [encFindList, preorderList, findQ_append]
    rw [ih c (by simp)]
    cases hf : (preorder c).find? (fun n => isFuncNode n && containsB p n) with
    | some n => simp
    | none =>
      simp only [Option.map_none]
      exact iht (fun d hd => ih d (by simp [hd]))

/-- Pre-order characterisation of the `GetEnclosingFunctionName` walk:
the node reported is the first function declaration or literal in
`ast.Inspect` visiting order (hence the outermost, not the innermost)
whose span contains the position. -/
theorem encFind_eq_find (p : Int) :
    ∀ t : GoNode, encFind p t =
      ((preorder t).find? (fun n => isFuncNode n && containsB p n)).map encOf := by
  refine GoNode.ind _ ?_
  intro k s e cs ih
  have hpre : preorder (GoNode.mk k s e cs) = GoNode.mk k s e cs :: preorderList cs := by
    rw [preorder]
  by_cases hc : s ≤ p ∧ p ≤ e
  · have hcb : containsB p (GoNode.mk k s e cs) = true := by
      simpa [containsB, Contains, GoNode.pos, GoNode.endPos] using hc
    cases k with
    | funcDecl name np recv =>
      rw [encFind, if_pos hc, hpre, List.find?_cons_of_pos _ (by simp [isFuncNode, hcb])]
      rfl
    | funcLit =>
      rw [encFind, if_pos hc, hpre, List.find?_cons_of_pos _ (by simp [isFuncNode, hcb])]
      rfl
    | callExpr =>
      rw [encFind, if_pos hc, hpre, List.find?_cons_of_neg _ (by simp [isFuncNode])]
      exact encFindList_eq_find p cs ih
      all_goals simp
    | other =>
      rw [encFind, if_pos hc, hpre, List.find?_cons_of_neg _ (by simp [isFuncNode])]
      exact encFindList_eq_find p cs ih
      all_goals simp
  · have hcb : containsB p (GoNode.mk k s e cs) = false := by
      simpa [containsB, Contains, GoNode.pos, GoNode.endPos] using hc
    have hnode : ¬ (isFuncNode (GoNode.mk k s e cs) &&
        containsB p (GoNode.mk k s e cs)) = true := by
      simp [hcb]
    have hbody : encFind p (GoNode.mk k s e cs) = encFindList p cs := by
      cases k <;> rw [encFind, if_neg hc] <;> simp
    have hskip : (GoNode.mk k s e cs :: preorderList cs).find?
        (fun n => isFuncNode n && containsB p n) =
          (preorderList cs).find? (fun n => isFuncNode n && containsB p n) :=
      List.find?_cons_of_neg _ hnode
    rw [hbody, hpre, hskip]
    exact encFindList_eq_find p cs ih

/-- C1 as amended: the enclosing-context query reports the first
function declaration or literal in pre-order — i.e. the outermost
enclosing one, not the innermost: when the position lies inside an
anonymous function literal nested in a named declaration whose span
contains it, the named declaration is reported.  A containing named
declaration is reported with its name, receiver type and receiver name
whatever lies beneath it, and when no function declaration or literal
contains the position the query returns the global-scope marker with
empty receiver. -/
theorem c1_enclosing_outermost :
    (∀ (p : Int) (t : GoNode),
        encFind p t =
          ((preorder t).find? (fun n => isFuncNode n && containsB p n)).map encOf) ∧
      (∀ (env : Env) (a : ASTProcessor) (path : String) (f : GoFile) (line character : Int),
        a.fileMap.lookup path = some f →
        getPosition f line character ≠ 0 →
        (∀ n ∈ preorder f.root,
          ¬(isFuncNode n && containsB (getPosition f line character) n) = true) →
        (getEnclosingFunctionName env a path line character).2 =
          Except.ok ⟨"global scope", "", ""⟩) ∧
      (∀ (p : Int) (name : String) (np : Int) (r : Recv) (s e : Int) (cs : List GoNode),
        s ≤ p ∧ p ≤ e →
        encFind p (GoNode.mk (.funcDecl name np (some r)) s e cs) =
          some ⟨name, exprToString r.rtype, r.names.headD ""⟩) := by
  refine ⟨encFind_eq_find, ?_, ?_⟩
  · intro env a path f line character hf hp hnone
    have hfind : encFind (getPosition f line character) f.root = none := by
      rw [encFind_eq_find, List.find?_eq_none.mpr hnone]
      rfl
    simp [getEnclosingFunctionName, parseFile, hf, if_neg hp, hfind]
  · intro p name np r s e cs hc
    rw [encFind, if_pos hc]
    rfl

/-- Witness for the amended C1: the witness file has no function nodes,
so a valid in-file position reports the global scope, and a method
declaration with a pointer receiver reports name, stripped-down
receiver type and receiver name. -/
theorem c1_witness :
    (getEnclosingFunctionName envW procW "/w/a.go" 1 7).2 =
        Except.ok ⟨"global scope", "", ""⟩ ∧
      encFind 5 (GoNode.mk (.funcDecl "M" 3 (some ⟨.star (.ident "T"), ["t"]⟩)) 1 9 []) =
        some ⟨"M", "*T", "t"⟩ :=
  ⟨c1_enclosing_outermost.2.1 envW procW "/w/a.go" fileW 1 7 rfl (by decide) (by decide),
    c1_enclosing_outermost.2.2 5 "M" 3 ⟨.star (.ident "T"), ["t"]⟩ 1 9 [] (by decide)⟩

/-- Parsed file of the C1 counterexample: a named declaration `Outer`
spanning positions 1–60 with an anonymous function literal spanning
10–50 nested inside it. -/
def fileC1 : GoFile :=
  ⟨GoNode.mk .other 1 100
      [GoNode.mk (.funcDecl "Outer" 6 none) 1 60 [GoNode.mk .funcLit 10 50 []]],
    1, [1]⟩

/-- Processor with the C1 counterexample file cached. -/
def procC1 : ASTProcessor := ⟨[("/w/c1.go", fileC1)]⟩

/-- Counterexample to C1: position 20 (line 1, column 20) lies inside
the anonymous function literal, which is nested inside the named
declaration `Outer`, yet the query reports `Outer` — the outermost
declaration — and not the anonymous-function marker the claim
requires. -/
theorem c1_counterexample :
    (getEnclosingFunctionName envW procC1 "/w/c1.go" 1 20).2 =
        Except.ok ⟨"Outer", "", ""⟩ ∧
      Subtree (GoNode.mk .funcLit 10 50 []) fileC1.root ∧
      Contains 20 (GoNode.mk .funcLit 10 50 []) ∧
      getPosition fileC1 1 20 = 20 ∧
      Enc.mk "Outer" "" "" ≠ Enc.mk "anonymous function" "" "" := by
  refine ⟨rfl, ?_, by decide, rfl, by decide⟩
  refine Subtree.child (c := GoNode.mk (.funcDecl "Outer" 6 none) 1 60
    [GoNode.mk .funcLit 10 50 []]) ?_ (Subtree.child ?_ (Subtree.refl _)) <;>
    simp [GoNode.children, fileC1]

/-! ### C10: columns are never validated, but the NoPos sentinel is rejected -/

/-- C10 as amended: for a line inside the file's range the position is
always computed as the line's start plus `(column - 1)` — no column
check of any kind, so a huge column can denote a position on a later
line (concrete conjunct: column 15 of the 10-character line 1 of the
witness file lands at or past the start of line 2) — but the computed
value is rejected as a position error in the one case where it equals
the `token.NoPos` sentinel 0 (column `1 - lineStart`, e.g. column 0 on
line 1 of the first file of a fresh file set); every other column is
accepted, the queries never reporting the position error. -/
theorem c10_column_unchecked :
    (∀ (f : GoFile) (line character : Int),
        1 ≤ line → line ≤ (f.lineStarts.length : Int) →
        getPosition f line character =
          f.lineStarts.getD (line - 1).toNat 0 + (character - 1)) ∧
      (∀ (env : Env) (a : ASTProcessor) (path : String) (f : GoFile) (src : List Char)
          (line character : Int),
        a.fileMap.lookup path = some f → env.readFile path = Except.ok src →
        getPosition f line character ≠ 0 →
        (extractFullCall env a path line character).2 ≠ Except.error Err.invalidPosition ∧
          (getEnclosingFunctionName env a path line character).2 ≠
            Except.error Err.invalidPosition) ∧
      getPosition fileW 1 15 = 15 ∧ fileW.lineStarts.getD 1 0 ≤ 15 := by
  refine ⟨?_, ?_, by decide, by decide⟩
  · intro f line character h1 h2
    unfold getPosition
    rw [if_neg]
    intro h
    rcases h with h | h
    · omega
    · omega
  · intro env a path f src line character hf hr hp
    constructor
    · simp only [extractFullCall, parseFile, hf, hr, Option.getD_some, if_neg hp]
      split
      · simp
      · split
        · simp
        · simp
    · simp only [getEnclosingFunctionName, parseFile, hf, Option.getD_some, if_neg hp]
      split
      · simp
      · simp

/-- Witness for the amended C10: column 0 on a valid line is computed
with no column check (reaching the sentinel), while column 7 runs the
queries without any position error. -/
theorem c10_witness :
    getPosition fileW 1 0 = fileW.lineStarts.getD 0 0 + (0 - 1) ∧
      (extractFullCall envW procW "/w/a.go" 1 7).2 ≠ Except.error Err.invalidPosition :=
  ⟨c10_column_unchecked.1 fileW 1 0 (by decide) (by decide),
    (c10_column_unchecked.2.1 envW procW "/w/a.go" fileW srcW 1 7 rfl rfl (by decide)).1⟩

/-- Counterexample to C10: on line 1 (a line well inside the file's
range) the column value 0 is not accepted — both positional queries
report the position error, because `lineStart + (column - 1)` is
`1 + (0 - 1) = 0 = token.NoPos` for the first file of a file set —
contradicting the claim that every column value, including 0, is
accepted without a position error. -/
theorem c10_counterexample :
    (extractFullCall envW procW "/w/a.go" 1 0).2 = Except.error Err.invalidPosition ∧
      (getEnclosingFunctionName envW procW "/w/a.go" 1 0).2 =
        Except.error Err.invalidPosition ∧
      (1 ≤ (1 : Int) ∧ (1 : Int) ≤ (fileW.lineStarts.length : Int)) :=
  ⟨rfl, rfl, by decide⟩

/-! ### C5: the workspace filter of the orchestrator -/

/-- Invariant of the inner reference loop: every entry of the output
accumulator was either already accumulated or targets a file whose path
has the working directory as a string prefix. -/
theorem refsLoop_prefix (env : Env) (menv : MEnv) (pwd : String) :
    ∀ (mts : List GoplsMatch) (ap : ASTProcessor) (acc : List MatchEntry) (e : MatchEntry),
      e ∈ (refsLoop env menv pwd ap acc mts).1.2 →
      e ∈ acc ∨ pwd.data.isPrefixOf e.filename.data = true := by
  intro mts
  induction mts with
  | nil =>
    intro ap acc e he
    exact Or.inl he
  | cons mt rest ih =>
    intro ap acc e he
    rw [refsLoop] at he
    split at he
    · exact ih _ _ _ he
    · rename_i hskip
      have hpre : pwd.data.isPrefixOf mt.filename.data = true := by
        cases hb : pwd.data.isPrefixOf mt.filename.data
        · rw [hb] at hskip
          simp at hskip
        · rfl
      split at he
      · exact Or.inl he
      · split at he
        · exact Or.inl he
        · rcases ih _ _ _ he with h | h
          · rcases List.mem_append.mp h with h2 | h2
            · exact Or.inl h2
            · right
              have he2 := List.mem_singleton.mp h2
              rw [he2]
              exact hpre
          · exact Or.inr h

/-- Invariant of the outer definition loop, inherited from
`refsLoop_prefix`. -/
theorem defsLoop_prefix (env : Env) (menv : MEnv) (pwd : String) :
    ∀ (defs : List AstMatch) (ap : ASTProcessor) (acc : List MatchEntry) (e : MatchEntry),
      e ∈ (defsLoop env menv pwd ap acc defs).1.2 →
      e ∈ acc ∨ pwd.data.isPrefixOf e.filename.data = true := by
  intro defs
  induction defs with
  | nil =>
    intro ap acc e he
    exact Or.inl he
  | cons d rest ih =>
    intro ap acc e he
    rw [defsLoop] at he
    split at he
    · exact Or.inl he
    · split at he
      · rename_i heq
        exact refsLoop_prefix env menv pwd _ _ _ e (by rw [heq]; exact he)
      · rename_i heq
        rcases ih _ _ _ he with h | h
        · exact refsLoop_prefix env menv pwd _ _ _ e (by rw [heq]; exact h)
        · exact Or.inr h

/-- C5 as amended: every entry `FindFuncReferences` adds to the result
set targets a file whose absolute path has the working directory as a
string prefix — the filter of part_000:164 — so references in files
whose paths do not extend the workspace path string never enter the
result set.  Directory containment is only approximated: a sibling path
that happens to extend the string (such as `/a/bc/f.go` under workspace
`/a/b`) passes the filter even though it lies outside the workspace
directory. -/
theorem c5_workspace_prefix_filter (env : Env) (menv : MEnv) (pwd : String) (m : Matcher)
    (pkgName : String) (patterns : List String) (e : MatchEntry)
    (he : e ∈ (findFuncReferences env menv pwd m pkgName patterns).1.refs) :
    e ∈ m.refs ∨ pwd.data.isPrefixOf e.filename.data = true := by
  unfold findFuncReferences at he
  split at he
  · exact Or.inl he
  · split at he
    rename_i heq
    exact defsLoop_prefix env menv pwd _ _ _ e (by rw [heq]; exact he)

/-- Definition-side file of the C5 environment: package `pkg` in
directory `/a/b` declares the exported function `F`. -/
def fileDef5 : GoFile :=
  ⟨GoNode.mk .other 1 30 [GoNode.mk (.funcDecl "F" 6 none) 1 20 []], 1, [1]⟩

/-- Reference-side file of the C5 environment, at path `/a/bc/f.go`
(outside the `/a/b` directory, but extending the string `/a/b`): one
call expression spanning positions 1–10. -/
def fileRef5 : GoFile :=
  ⟨GoNode.mk .other 1 21 [GoNode.mk .callExpr 1 10 []], 1, [1]⟩

/-- Analyzer environment of the C5 scenario. -/
def env5 : Env :=
  { readFile := fun p =>
      if p == "/a/b/d.go" then .ok "package b".data
      else if p == "/a/bc/f.go" then .ok "0123456789abcdefghij".data
      else .error "no such file"
  , parse := fun p _ =>
      if p == "/a/b/d.go" then .ok fileDef5
      else if p == "/a/bc/f.go" then .ok fileRef5
      else .error "syntax error"
  , importPkg := fun s =>
      if s == "pkg" then .ok ⟨"/a/b", ["d.go"]⟩ else .error "cannot find package" }

/-- Orchestrator environment of the C5 scenario: the external server
reports one reference, in `/a/bc/f.go`. -/
def menv5 : MEnv :=
  { findReferences := fun _ _ _ => .ok [⟨"file:///a/bc/f.go", "/a/bc/f.go", 1, 5, 1, 8⟩]
  , format := fun cs => cs }

/-- Witness for the amended C5, applying the filter theorem to the
entry the C5 scenario produces. -/
theorem c5_witness :
    (⟨"/a/bc/f.go", 1, "", "", "global scope", "012345678".data, "012345678".data⟩ :
          MatchEntry) ∈ (⟨[]⟩ : Matcher).refs ∨
      "/a/b".data.isPrefixOf ("/a/bc/f.go" : String).data = true :=
  c5_workspace_prefix_filter env5 menv5 "/a/b" ⟨[]⟩ "pkg" ["F"] _ (by decide)

/-- Counterexample to C5: with workspace root `/a/b`, the external
server reports a reference in `/a/bc/f.go` — a file outside the
workspace root directory (its path neither equals the root nor extends
`/a/b/`) — and `FindFuncReferences` does add a result entry for it,
because the filter is a bare string-prefix test. -/
theorem c5_counterexample :
    ((findFuncReferences env5 menv5 "/a/b" ⟨[]⟩ "pkg" ["F"]).1.refs.map
        (fun e => e.filename)) = ["/a/bc/f.go"] ∧
      ("/a/b/").data.isPrefixOf ("/a/bc/f.go" : String).data = false ∧
      "/a/bc/f.go" ≠ "/a/b" := by
  refine ⟨rfl, by decide, by decide⟩

/-! ### C4: the innermost-call extraction -/

/-- Spans of subtrees are contained in the span of the tree. -/
theorem subtree_span {d t : GoNode} (hsub : Subtree d t) :
    WF t → t.pos ≤ d.pos ∧ d.endPos ≤ t.endPos := by
  induction hsub with
  | refl => exact fun _ => ⟨le_refl _, le_refl _⟩
  | child hc hsubc ih =>
    intro hwf
    cases hwf with
    | mk hspan hpair hch =>
      rename_i t
      have h1 := hspan _ hc
      have h2 := ih (hch _ hc)
      exact ⟨le_trans h1.1 h2.1, le_trans h2.2 h1.2⟩

/-- Sizes of subtrees are bounded by the size of the tree. -/
theorem subtree_sizeOf {d t : GoNode} (hsub : Subtree d t) : sizeOf d ≤ sizeOf t := by
  induction hsub with
  | refl => exact le_refl _
  | child hc hsubc ih =>
    rename_i c t
    obtain ⟨k, s, e, cs⟩ := t
    have h1 : sizeOf c < sizeOf cs := List.sizeOf_lt_of_mem hc
    have h2 : sizeOf (GoNode.mk k s e cs) = 1 + sizeOf k + sizeOf s + sizeOf e + sizeOf cs := by
      simp
    omega

/-- A subtree of a childless node is that node. -/
theorem subtree_leaf {d : GoNode} {k : NodeKind} {s e : Int}
    (h : Subtree d (GoNode.mk k s e [])) : d = GoNode.mk k s e [] := by
  cases h with
  | refl => rfl
  | child hc => simp [GoNode.children] at hc

/-- A forest walk over trees that individually leave any accumulator
unchanged leaves the accumulator unchanged. -/
theorem findCallList_id (p : Int) :
    ∀ (cs : List GoNode), (∀ c ∈ cs, ∀ acc, findCall p acc c = acc) →
      ∀ acc, findCallList p acc cs = acc := by
  intro cs h
  induction cs with
  | nil => intro acc; rfl
  | cons c t iht =>
    intro acc
    rw [findCallList, h c (by simp)]
    exact iht (fun d hd => h d (by simp [hd])) acc

/-- If no call node of the tree contains the position, the walk of
`ExtractFullCall` leaves the accumulator unchanged. -/
theorem findCall_no (p : Int) :
    ∀ t : GoNode, (∀ d, Subtree d t → IsCall d → ¬ Contains p d) →
      ∀ acc, findCall p acc t = acc := by
  refine GoNode.ind _ ?_
  intro k s e cs ih hno acc
  rw [findCall, if_neg (fun hcond =>
    hno (GoNode.mk k s e cs) (Subtree.refl _) hcond.1 ⟨hcond.2.1, hcond.2.2⟩)]
  exact findCallList_id p cs
    (fun c hc => ih c hc (fun d hd hdc hdp => hno d (Subtree.child hc hd) hdc hdp)) acc

/-- In a well-formed tree whose span lies entirely to one side of the
position, the walk leaves the accumulator unchanged. -/
theorem findCall_outside (p : Int) {t : GoNode} (hwf : WF t)
    (hout : p < t.pos ∨ t.endPos < p) : ∀ acc, findCall p acc t = acc := by
  apply findCall_no
  intro d hsub _ hcont
  obtain ⟨h1, h2⟩ := subtree_span hsub hwf
  obtain ⟨h3, h4⟩ := hcont
  rcases hout with h | h
  · omega
  · omega

/-- At a call node containing the position with no containing call
strictly below it, the walk reports exactly that node's span. -/
theorem findCall_at_call (p : Int) {C : GoNode} (hcall : IsCall C) (hcont : Contains p C)
    (hmin : ∀ d, Subtree d C → d ≠ C → IsCall d → ¬ Contains p d) :
    ∀ acc, findCall p acc C = some (C.pos, C.endPos) := by
  intro acc
  obtain ⟨k, s, e, cs⟩ := C
  rw [findCall, if_pos ⟨hcall, hcont.1, hcont.2⟩]
  apply findCallList_id
  intro c hc acc2
  apply findCall_no
  intro d hd hdc hdp
  have hne : d ≠ GoNode.mk k s e cs := by
    intro heq
    have hds := subtree_sizeOf hd
    have hcs : sizeOf c < sizeOf cs := List.sizeOf_lt_of_mem hc
    rw [heq] at hds
    simp only [GoNode.mk.sizeOf_spec] at hds
    omega
  exact hmin d (Subtree.child hc hd) hne hdc hdp

/-- Decomposing the forest walk over an append. -/
theorem findCallList_append (p : Int) :
    ∀ (l1 l2 : List GoNode) (acc : Option (Int × Int)),
      findCallList p acc (l1 ++ l2) = findCallList p (findCallList p acc l1) l2 := by
  intro l1
  induction l1 with
  | nil => intro l2 acc; rfl
  | cons c t ih =>
    intro l2 acc
    rw [List.cons_append, findCallList, findCallList, ih]

/-- Main correctness of the `ExtractFullCall` walk: in a well-formed
tree, if a call node `C` contains the position and no call node nested
below `C` contains it, the walk reports exactly `C`'s span whatever the
starting accumulator — later siblings cannot contain the position and
ancestors were already overwritten. -/
theorem findCall_main (p : Int) :
    ∀ t : GoNode, WF t → ∀ C : GoNode, Subtree C t → IsCall C → Contains p C →
      (∀ d, Subtree d C → d ≠ C → IsCall d → ¬ Contains p d) →
      ∀ acc, findCall p acc t = some (C.pos, C.endPos) := by
  refine GoNode.ind _ ?_
  intro k s e cs ih hwf C hsub hcall hcont hmin acc
  cases hsub with
  | refl => exact findCall_at_call p hcall hcont hmin acc
  | child hc hsubc =>
    rename_i c
    cases hwf with
    | mk hspan hpair hch =>
      have hcmem : c ∈ cs := hc
      obtain ⟨l1, l2, hsplit⟩ := List.append_of_mem hcmem
      have hwfc : WF c := hch c hcmem
      have hspanC := subtree_span hsubc hwfc
      have hsep : ∀ b ∈ l2, c.endPos < b.pos := by
        have hpair2 : (l1 ++ c :: l2).Pairwise (fun a b => a.endPos < b.pos) := by
          rw [← hsplit]
          exact hpair
        exact fun b hb => (List.pairwise_cons.mp (List.pairwise_append.mp hpair2).2.1).1 b hb
      rw [findCall, hsplit, findCallList_append, findCallList,
        ih c hcmem hwfc C hsubc hcall hcont hmin]
      apply findCallList_id
      intro b hb acc2
      have hbmem : b ∈ cs := by
        rw [hsplit]
        simp [hb]
      have hwfb : WF b := hch b hbmem
      apply findCall_outside p hwfb
      left
      have h1 := hsep b hb
      have h2 := hspanC.2
      have h3 := hcont.2
      omega

/-- C4: for a parsed, readable file with a well-formed tree, a position
strictly inside a call expression `C` and inside no call nested within
`C` makes `ExtractFullCall` return exactly the original source text of
`C`'s span (the characters between `C`'s offsets), the innermost
containing call winning over all enclosing ones. -/
theorem c4_extract_innermost_call (env : Env) (a : ASTProcessor) (path : String)
    (f : GoFile) (src : List Char) (line character : Int) (C : GoNode)
    (hf : a.fileMap.lookup path = some f)
    (hr : env.readFile path = Except.ok src)
    (hwf : WF f.root)
    (hsub : Subtree C f.root)
    (hcall : IsCall C)
    (hin : C.pos < getPosition f line character ∧ getPosition f line character < C.endPos)
    (hnonest : ∀ d, Subtree d C → d ≠ C → IsCall d →
      ¬ Contains (getPosition f line character) d)
    (hbase : 0 < f.base) (hbase2 : f.base ≤ C.pos)
    (hlen : C.endPos - f.base ≤ (src.length : Int)) :
    (extractFullCall env a path line character).2 =
      Except.ok (sliceChars src (C.pos - f.base) (C.endPos - f.base)) := by
  obtain ⟨hin1, hin2⟩ := hin
  have hp0 : getPosition f line character ≠ 0 := by omega
  have hcont : Contains (getPosition f line character) C := ⟨le_of_lt hin1, le_of_lt hin2⟩
  have hfind := findCall_main (getPosition f line character) f.root hwf C hsub hcall hcont
    hnonest none
  have hbounds : ¬(C.pos - f.base < 0 ∨ (C.endPos - f.base) > (src.length : Int) ∨
      C.pos - f.base ≥ C.endPos - f.base) := by
    push_neg
    refine ⟨by omega, by omega, by omega⟩
  simp only [extractFullCall, parseFile, hf, Option.getD_some, hr, if_neg hp0, hfind,
    if_neg hbounds]

/-- Well-formedness of the witness file's tree. -/
theorem fileW_wf : WF fileW.root := by
  refine WF.mk ?_ ?_ ?_
  · intro c hc
    simp only [fileW, GoNode.children] at hc
    rw [List.mem_singleton] at hc
    rw [hc]
    exact ⟨by decide, by decide⟩
  · simp [fileW, GoNode.children]
  · intro c hc
    simp only [fileW, GoNode.children] at hc
    rw [List.mem_singleton] at hc
    rw [hc]
    exact WF.mk (by intro c hc; simp [GoNode.children] at hc)
      (by simp [GoNode.children]) (by intro c hc; simp [GoNode.children] at hc)

/-- Witness for C4: position (line 1, column 7) of the witness file is
the file-set position 7, strictly inside the call spanning 5–15 with
nothing nested below it, and the query returns exactly that span's
source slice. -/
theorem c4_witness :
    (extractFullCall envW procW "/w/a.go" 1 7).2 =
      Except.ok (sliceChars srcW ((5 : Int) - 1) ((15 : Int) - 1)) := by
  have hsub : Subtree (GoNode.mk .callExpr 5 15 []) fileW.root := by
    refine Subtree.child ?_ (Subtree.refl _)
    simp [fileW, GoNode.children]
  have hnonest : ∀ d, Subtree d (GoNode.mk .callExpr 5 15 []) →
      d ≠ GoNode.mk .callExpr 5 15 [] → IsCall d →
      ¬ Contains (getPosition fileW 1 7) d := by
    intro d hd hne _
    exact absurd (subtree_leaf hd) hne
  exact c4_extract_innermost_call envW procW "/w/a.go" fileW srcW 1 7
    (GoNode.mk .callExpr 5 15 []) rfl rfl fileW_wf hsub rfl
    (by constructor <;> decide) hnonest (by decide) (by decide) (by decide)

end Plsdo
